import Mathlib

/-!
Verification development for the people-card finder script
(src/people-card-finder.js).

Strings are modelled as `List Char` (Lean `Char` is a Unicode scalar
value).  The script's Unicode-dependent primitives are modelled on the
ASCII plane:

* `String.prototype.toLowerCase` / `toUpperCase` are modelled by the
  ASCII case maps `jsLower` / `jsUpper` (non-ASCII scalars are fixed);
* `String.prototype.normalize ('NFD')` is modelled by the identity
  (`nfd`), which is exact on ASCII text, where no decomposition occurs;
* the regex class `\p{Diacritic}` is modelled by `isDiacritic`,
  covering the Combining Diacritical Marks block U+0300..U+036F and the
  two ASCII members U+005E and U+0060;
* the regex class `\s` (and `String.prototype.trim`'s notion of white
  space) is modelled by `isJsSpace`, the ECMAScript WhiteSpace and
  LineTerminator code points.

Effectful DOM interaction (polling waits, clicks) is modelled by a
per-query oracle recording the outcome of each await site; the pure
string/regex computations are translated directly from the source.
-/

namespace PeopleCard

/-- ASCII lower-casing: models `String.prototype.toLowerCase` on the
ASCII plane (code points 65–90 map down by 32; all others are fixed). -/
def jsLower (c : Char) : Char :=
  if 65 ≤ c.toNat ∧ c.toNat ≤ 90 then Char.ofNat (c.toNat + 32) else c

/-- ASCII upper-casing: models `String.prototype.toUpperCase` (and the
ECMAScript regex `Canonicalize` operation under the `i` flag) on the
ASCII plane (code points 97–122 map up by 32; all others are fixed). -/
def jsUpper (c : Char) : Char :=
  if 97 ≤ c.toNat ∧ c.toNat ≤ 122 then Char.ofNat (c.toNat - 32) else c

/-- The ECMAScript `\s` class (WhiteSpace ∪ LineTerminator), also used
by `String.prototype.trim`. -/
def isJsSpace (c : Char) : Bool :=
  decide (c.toNat = 9 ∨ c.toNat = 10 ∨ c.toNat = 11 ∨ c.toNat = 12 ∨
    c.toNat = 13 ∨ c.toNat = 32 ∨ c.toNat = 160 ∨ c.toNat = 5760 ∨
    (8192 ≤ c.toNat ∧ c.toNat ≤ 8202) ∨ c.toNat = 8232 ∨ c.toNat = 8233 ∨
    c.toNat = 8239 ∨ c.toNat = 8287 ∨ c.toNat = 12288 ∨ c.toNat = 65279)

/-- Modelled subset of the Unicode `Diacritic` property used by the
`\p{Diacritic}` class: the Combining Diacritical Marks block
U+0300..U+036F plus its two ASCII members U+005E and U+0060. -/
def isDiacritic (c : Char) : Bool :=
  decide ((768 ≤ c.toNat ∧ c.toNat ≤ 879) ∨ c.toNat = 94 ∨ c.toNat = 96)

/-- ASCII lower-case letter test (`a`–`z`). -/
def isLowerAZ (c : Char) : Bool := decide (97 ≤ c.toNat ∧ c.toNat ≤ 122)

/-- Decimal digit test (`0`–`9`), the ECMAScript `\d` class. -/
def isDigit09 (c : Char) : Bool := decide (48 ≤ c.toNat ∧ c.toNat ≤ 57)

/-- Hyphen test, for the hyphen-run replacement (regex `-+`, global). -/
def isHyphen (c : Char) : Bool := c == '-'

/-- NFD normalization, modelled as the identity: on ASCII text (the
domain this development reasons about) `normalize('NFD')` is exact
here; decomposition of precomposed non-ASCII letters is not modelled. -/
def nfd (s : List Char) : List Char := s

/-- Core of a global regex replacement `s.replace(/p+/g, r)` for a
one-character class `p` and one-character replacement `r`: each maximal
run of characters satisfying `p` is replaced by the single character
`r`.  The boolean argument records whether the previous character was
inside a run. -/
def collapseRunsAux (p : Char → Bool) (r : Char) : Bool → List Char → List Char
  | _, [] => []
  | inRun, c :: cs =>
    if p c then
      if inRun then collapseRunsAux p r true cs
      else r :: collapseRunsAux p r true cs
    else c :: collapseRunsAux p r false cs

/-- `s.replace(/p+/g, r)` for a one-character class `p`. -/
def collapseRuns (p : Char → Bool) (r : Char) (s : List Char) : List Char :=
  collapseRunsAux p r false s

/-- `String.prototype.trim`: strips `isJsSpace` characters from both
ends. -/
def trimJs (s : List Char) : List Char :=
  ((s.dropWhile isJsSpace).reverse.dropWhile isJsSpace).reverse

/-- The `.replace(/[-_]/g, ' ')` step of `sanitizeName`. -/
def dashToSpace (c : Char) : Char :=
  if c = '-' ∨ c = '_' then ' ' else c

/-- Embeds `sanitizeName` (src/people-card-finder.js lines 31–38):
lower-case, NFD-normalize, strip diacritics, replace `[-_]` by spaces,
collapse white-space runs to single spaces, trim. -/
def sanitizeName (name : List Char) : List Char :=
  trimJs (collapseRuns isJsSpace ' '
    (List.map dashToSpace
      (List.filter (fun c => !(isDiacritic c)) (nfd (List.map jsLower name)))))

/-- The character class kept by `canonicalKebab`'s
`.replace(/[^a-z0-9\s-]/g, '')` step. -/
def keepKebab (c : Char) : Bool :=
  isLowerAZ c || isDigit09 c || isJsSpace c || c == '-'

/-- The `^-` half of `.replace(/^-|-$/g, '')`: removes one leading
hyphen if present. -/
def dropOneLeadingHyphen : List Char → List Char
  | [] => []
  | c :: t => if c = '-' then t else c :: t

/-- Embeds `.replace(/^-|-$/g, '')`: removes one leading and one
trailing hyphen. -/
def stripEdgeHyphens (s : List Char) : List Char :=
  (dropOneLeadingHyphen (dropOneLeadingHyphen s).reverse).reverse

/-- Embeds `canonicalKebab` (src/people-card-finder.js lines 40–48):
lower-case, NFD-normalize, strip diacritics, drop everything outside
`[a-z0-9\s-]`, turn white-space runs into single hyphens, collapse
hyphen runs, and strip one hyphen from each edge. -/
def canonicalKebab (s : List Char) : List Char :=
  stripEdgeHyphens (collapseRuns isHyphen '-'
    (collapseRuns isJsSpace '-'
      (List.filter keepKebab
        (List.filter (fun c => !(isDiacritic c)) (nfd (List.map jsLower s))))))

/-- Exceptions thrown by the script: the `ReferenceError` raised by an
out-of-scope identifier, and ordinary `Error` objects (`throw new
Error(...)` and promise rejections). -/
inductive JsErr where
  | referenceError : JsErr
  | jsError : JsErr
deriving DecidableEq, Repr

instance {ε α : Type} [DecidableEq ε] [DecidableEq α] : DecidableEq (Except ε α) := fun x y => by
  cases x <;> cases y
  case error.error a b => exact decidable_of_iff (a = b) (by simp)
  case ok.ok a b => exact decidable_of_iff (a = b) (by simp)
  all_goals exact .isFalse (by simp)

/-- `String.prototype.split(' ')` on a single-space separator:
`[]` input (the empty string) yields one empty field, as in
ECMAScript. -/
def splitOnSpace : List Char → List (List Char)
  | [] => [[]]
  | c :: cs =>
    if c = ' ' then [] :: splitOnSpace cs
    else
      match splitOnSpace cs with
      | t :: ts => (c :: t) :: ts
      | [] => [[c]]

/-- Embeds `parsePersonName` (src/people-card-finder.js lines 50–59):
sanitize, split on spaces, throw when fewer than two parts, otherwise
return `first = parts[0]` and `last = parts.slice(1).join(' ')`. -/
def parsePersonName (full : List Char) : Except JsErr (List Char × List Char) :=
  let s := sanitizeName full
  let parts := splitOnSpace s
  if parts.length < 2 then .error .jsError
  else .ok (parts.headD [], List.intercalate [' '] (parts.drop 1))

/-- The `clean` value of `computeLetterAndRange`:
`canonicalKebab(last)` with every hyphen removed (replacement of the
global regex `-` by the empty string). -/
def cleanOf (last : List Char) : List Char :=
  (canonicalKebab last).filter (fun c => !(c == '-'))

/-- The record returned by `computeLetterAndRange`. -/
structure Folders where
  letterFolder : List Char
  rangeFolder : List Char
deriving DecidableEq, Repr

/-- Embeds `computeLetterAndRange` (src/people-card-finder.js lines
88–109).  `clean[0] || ''` is the head of `cleanOf last` (the guard
`!firstLetter` fails exactly when `clean` is empty, so the empty case
throws); `(clean[1] || 'a')` is `headD` of the tail with default `'a'`;
the bucket comparisons are ECMAScript single-character string
comparisons, i.e. code-point comparisons. -/
def computeLetterAndRange (last : List Char) : Except JsErr Folders :=
  match cleanOf last with
  | [] => .error .jsError
  | c0 :: rest =>
    let firstLetter := jsUpper c0
    if !(decide (65 ≤ firstLetter.toNat ∧ firstLetter.toNat ≤ 90)) then
      .error .jsError
    else
      let secondLetter := jsLower (rest.headD 'a')
      let bucket : Char × Char :=
        if decide ('a' ≤ secondLetter ∧ secondLetter ≤ 'i') then ('a', 'i')
        else if decide ('j' ≤ secondLetter ∧ secondLetter ≤ 'r') then ('j', 'r')
        else ('s', 'z')
      .ok ⟨[firstLetter], [firstLetter, bucket.1, '-', firstLetter, bucket.2]⟩

/-- Abstract syntax of the regular expressions built by the script.
The four tier patterns use only literal characters, the bracket class
`[a-z0-9-]` with `*` or `+`, and `\d{4}`, all anchored by `^...$`, so
the AST provides exactly: the empty pattern, a one-character class, a
starred one-character class, a `+`-repeated one-character class, and
concatenation.  Anchoring is modelled by `mtch` matching the whole
candidate string. -/
inductive RE where
  | eps : RE
  | cls (p : Char → Bool) : RE
  | clsStar (p : Char → Bool) : RE
  | clsPlus (p : Char → Bool) : RE
  | cat (a b : RE) : RE

/-- All two-part decompositions of a list: `q ∈ splits s` iff
`q.1 ++ q.2 = s`. -/
def splits : List Char → List (List Char × List Char)
  | [] => [([], [])]
  | c :: cs => ([], c :: cs) :: (splits cs).map (fun q => (c :: q.1, q.2))

/-- Whole-string matching semantics for `RE` (the `^...$`-anchored
`RegExp.prototype.test` of the script's patterns). -/
def mtch : RE → List Char → Bool
  | .eps, s => s.isEmpty
  | .cls p, s =>
    match s with
    | [c] => p c
    | _ => false
  | .clsStar p, s => s.all p
  | .clsPlus p, s => !s.isEmpty && s.all p
  | .cat a b, s => (splits s).any (fun q => mtch a q.1 && mtch b q.2)

/-- A literal character under the `i` flag: the ECMAScript
`Canonicalize` operation compares upper-cased characters (modelled on
the ASCII plane by `jsUpper`). -/
def ciCls (c : Char) : RE := .cls (fun d => jsUpper d == jsUpper c)

/-- A literal string under the `i` flag, as a concatenation of
case-insensitive character literals. -/
def reLit : List Char → RE
  | [] => .eps
  | c :: cs => .cat (ciCls c) (reLit cs)

/-- The class `[a-z0-9-]` under the `i` flag: a character matches iff
its canonicalized (upper-cased) form is an upper-case letter, a digit,
or a hyphen; equivalently the class accepts ASCII letters of either
case, digits, and hyphens. -/
def wordHyphenCls (c : Char) : Bool :=
  decide ((65 ≤ (jsUpper c).toNat ∧ (jsUpper c).toNat ≤ 90) ∨
    (48 ≤ (jsUpper c).toNat ∧ (jsUpper c).toNat ≤ 57) ∨ jsUpper c = '-')

/-- The `\d{4}` tail shared by all four patterns. -/
def reDigits4 : RE :=
  .cat (.cls isDigit09) (.cat (.cls isDigit09) (.cat (.cls isDigit09) (.cls isDigit09)))

/-- Embeds `buildExactRegex` (src/people-card-finder.js lines 111–117):
the pattern `^L-F-\d{4}$` with `L = canonicalKebab(last)` and
`F = canonicalKebab(first)`, compiled with the `i` flag.  `L` and `F`
contain only `a-z0-9-` (see `kebabChar_of_mem_canonicalKebab`), so they
occur in the pattern as literals. -/
def buildExactRegex (last first : List Char) : RE :=
  .cat (reLit (canonicalKebab last))
    (.cat (reLit ['-'])
      (.cat (reLit (canonicalKebab first))
        (.cat (reLit ['-']) reDigits4)))

/-- Embeds `buildLastPlusFirstInitialRegex` (lines 119–127): the
pattern `^L-I[a-z0-9-]*-\d{4}$` where `I = canonicalKebab(first).charAt(0)`
(the empty literal when `first` canonicalizes to the empty string),
with the `i` flag. -/
def buildLastPlusFirstInitialRegex (last first : List Char) : RE :=
  .cat (reLit (canonicalKebab last))
    (.cat (reLit ['-'])
      (.cat (reLit ((canonicalKebab first).take 1))
        (.cat (.clsStar wordHyphenCls)
          (.cat (reLit ['-']) reDigits4))))

/-- Embeds `buildLastOnlyRegex` (lines 129–134): the pattern
`^L-[a-z0-9-]+-\d{4}$` with the `i` flag. -/
def buildLastOnlyRegex (last : List Char) : RE :=
  .cat (reLit (canonicalKebab last))
    (.cat (reLit ['-'])
      (.cat (.clsPlus wordHyphenCls)
        (.cat (reLit ['-']) reDigits4)))

/-- Embeds `buildFirstLetterRegex` (lines 136–142): the pattern
`^c[a-z0-9-]*-\d{4}$` where `c = (canonicalKebab(last)[0] || '').toLowerCase()`
(the empty literal when `last` canonicalizes to the empty string),
with the `i` flag. -/
def buildFirstLetterRegex (last : List Char) : RE :=
  .cat (reLit (((canonicalKebab last).take 1).map jsLower))
    (.cat (.clsStar wordHyphenCls)
      (.cat (reLit ['-']) reDigits4))

/-- ECMAScript values relevant to `headshotImgString`: `null`,
`undefined`, and strings. -/
inductive JsVal where
  | nul : JsVal
  | undefinedVal : JsVal
  | str (s : List Char) : JsVal
deriving DecidableEq, Repr

/-- ECMAScript truthiness on the values above (`''`, `null` and
`undefined` are falsy). -/
def jsTruthy : JsVal → Bool
  | .nul => false
  | .undefinedVal => false
  | .str s => !s.isEmpty

/-- The `a || b` operator on the values above. -/
def jsOr (a b : JsVal) : JsVal := if jsTruthy a then a else b

/-- A `span` element as seen by `getHeadshotImageString`: its text
content, and the value reached by the optional chain
`parentElement?.nextElementSibling?.querySelector('input')?.getAttribute('value')`
(collapsed into one `Option`: `none` when any link of the chain is
missing, `some v` when an input with a `value` attribute is found). -/
structure SpanNode where
  text : List Char
  inputValue : Option (List Char)
deriving DecidableEq, Repr

/-- The search label of `getHeadshotImageString`. -/
def headshotLabel : List Char := (r"Headshot Image").toList

/-- The identifier `val` of `getHeadshotImageString`. -/
def valIdent : List Char := ['v', 'a', 'l']

/-- Leading-segment test used by `hasSub`. -/
def leadsWith : List Char → List Char → Bool
  | [], _ => true
  | _ :: _, [] => false
  | a :: as, b :: bs => a == b && leadsWith as bs

/-- `String.prototype.includes`: does `pat` occur as a contiguous
subsequence of the second argument? -/
def hasSub (pat : List Char) : List Char → Bool
  | [] => pat.isEmpty
  | c :: cs => leadsWith pat (c :: cs) || hasSub pat cs

/-- A lexical scope: identifier-to-value bindings. -/
def lookupVar (scope : List (List Char × JsVal)) (x : List Char) : Option JsVal :=
  (scope.find? (fun b => b.1 == x)).map (fun b => b.2)

/-- The result of `input?.getAttribute('value')`: the attribute string,
or `undefined` when the optional chain broke (the distinction between
a missing link and a missing attribute does not matter downstream,
both are falsy). -/
def chainVal : Option (List Char) → JsVal
  | some v => .str v
  | none => .undefinedVal

/-- Embeds `getHeadshotImageString` (src/people-card-finder.js lines
251–270).  The `const val` declaration at line 265 creates a binding in
the scope of the `if` block only; that scope ends with the block, so
`return val || null` at line 269 resolves `val` in the function scope,
where no binding exists, and evaluation throws a `ReferenceError`. -/
def getHeadshotImageString (doc : List SpanNode) : Except JsErr JsVal :=
  let fnScope : List (List Char × JsVal) := []
  let targetSpan := doc.find? (fun sp => hasSub headshotLabel sp.text)
  let fnScope :=
    match targetSpan with
    | some sp =>
      let blockScope := (valIdent, chainVal sp.inputValue) :: fnScope
      let _ := blockScope
      fnScope
    | none => fnScope
  match lookupVar fnScope valIdent with
  | some v => .ok (jsOr v .nul)
  | none => .error .referenceError

/-- Outcome of one `clickFirstRegex` call: the promise resolves `true`
(a node matched and its span was clicked), resolves `false` (a node
matched but had no span), or rejects (the wait timed out). -/
inductive TierOutcome where
  | clickedTrue : TierOutcome
  | clickedFalse : TierOutcome
  | timeout : TierOutcome
deriving DecidableEq, Repr

/-- Oracle for the effectful steps of one loop iteration: the outcome
of the `expand` chain down to the range folder (an `Error` rejection on
timeout), the outcome of `clickFirstRegex` for each of the four tier
patterns, and the `span` population of the expanded subtree that
`getHeadshotImageString` searches. -/
structure QueryEnv where
  expandResult : Except JsErr Unit
  tier1 : TierOutcome
  tier2 : TierOutcome
  tier3 : TierOutcome
  tier4 : TierOutcome
  doc : List SpanNode
deriving DecidableEq, Repr

/-- One element of `peopleCardData` (src/people-card-finder.js lines
24–28): initialized with `found: false, headshotImgString: null`. -/
structure Entry where
  name : List Char
  found : Bool
  headshotImgString : JsVal
deriving DecidableEq, Repr

/-- The initial entry built for each provided name. -/
def initEntry (n : List Char) : Entry := ⟨n, false, .nul⟩

/-- The fallback tiers 2–4 (lines 304–333): each successful click just
executes `continue`, and each failure falls through to the next tier
inside its own `catch`, so the entry is returned unchanged on every
path. -/
def runLaterTiers (env : QueryEnv) (entry : Entry) : Entry :=
  match env.tier2 with
  | .clickedTrue => entry
  | _ =>
    match env.tier3 with
    | .clickedTrue => entry
    | _ =>
      match env.tier4 with
      | .clickedTrue => entry
      | _ => entry

/-- The tier chain (lines 292–333).  Only the exact tier records a
result: on a successful click it sets `found := true` and then
evaluates `getHeadshotImageString`; if that evaluation throws, the
exception is caught by the exact tier's `catch` and control falls
through to the fallback tiers with `found` already set.  A `false`
resolution skips the `if` body, and a rejection is caught, both
falling through to the fallback tiers. -/
def runTiers (env : QueryEnv) (entry : Entry) : Entry :=
  match env.tier1 with
  | .clickedTrue =>
    let entry1 : Entry := { entry with found := true }
    match getHeadshotImageString env.doc with
    | .ok v => { entry1 with headshotImgString := v }
    | .error _ => runLaterTiers env entry1
  | _ => runLaterTiers env entry

/-- The body of one `for (const person of peopleCardData)` iteration
(lines 272–336), returning the entry's final state together with the
exception, if any, that reached the outer `catch`: `parsePersonName`
and `computeLetterAndRange` throw before any tree interaction, the
`expand` chain may reject, and the tier chain itself never lets an
exception escape. -/
def runQueryBody (env : QueryEnv) (name : List Char) (entry : Entry) :
    Entry × Option JsErr :=
  match parsePersonName name with
  | .error e => (entry, some e)
  | .ok fl =>
    match computeLetterAndRange fl.2 with
    | .error e => (entry, some e)
    | .ok _ =>
      match env.expandResult with
      | .error e => (entry, some e)
      | .ok _ => (runTiers env entry, none)

/-- One full loop iteration: the outer `catch` logs the exception and
keeps the entry state reached so far. -/
def processPerson (env : QueryEnv) (name : List Char) (entry : Entry) : Entry :=
  (runQueryBody env name entry).1

/-- The loop over `peopleCardData`, with `i` the index of the current
query (each query gets its own oracle `env i`). -/
def runBatchFrom (env : Nat → QueryEnv) (i : Nat) : List (List Char) → List Entry
  | [] => []
  | n :: ns => processPerson (env i) n (initEntry n) :: runBatchFrom env (i + 1) ns

/-- The whole batch: build the initial entries and run the loop. -/
def runBatch (env : Nat → QueryEnv) (names : List (List Char)) : List Entry :=
  runBatchFrom env 0 names

/-- The script's top level (lines 17–340): with no provided names it
logs an error and returns `undefined` (modelled `none`); otherwise it
processes every query and returns `peopleCardData`. -/
def peopleCardScript (env : Nat → QueryEnv) (names : List (List Char)) :
    Option (List Entry) :=
  if names.length > 0 then some (runBatch env names) else none

/-- Concrete oracle: expansion succeeds, the exact tier clicks, and the
expanded subtree contains a headshot span whose sibling input carries a
value. -/
def envExactClick : QueryEnv :=
  ⟨.ok (), .clickedTrue, .timeout, .timeout, .timeout,
    [⟨headshotLabel, some (r"img.png").toList⟩]⟩

/-- Concrete oracle: the exact tier times out and the
last-plus-first-initial tier clicks. -/
def envTier2Click : QueryEnv :=
  ⟨.ok (), .timeout, .clickedTrue, .timeout, .timeout,
    [⟨headshotLabel, some (r"img.png").toList⟩]⟩

/-- Concrete oracle: every tier times out or resolves false. -/
def envAllFail : QueryEnv :=
  ⟨.ok (), .timeout, .clickedFalse, .timeout, .timeout, []⟩

/-- A concrete two-word query used by witnesses. -/
def nameJohnSmith : List Char := (r"john smith").toList

/-- No two adjacent characters of the list both satisfy `p`. -/
def NoAdjRun (p : Char → Bool) (l : List Char) : Prop :=
  List.Chain' (fun a b => p a = false ∨ p b = false) l

/-- The output alphabet of `canonicalKebab`: ASCII lower-case letters,
digits, and the hyphen. -/
def KebabChar (c : Char) : Prop :=
  (97 ≤ c.toNat ∧ c.toNat ≤ 122) ∨ (48 ≤ c.toNat ∧ c.toNat ≤ 57) ∨ c = '-'

/-- The output alphabet invariants of `sanitizeName`: characters are
lower-case-stable, non-diacritic, not hyphens or underscores, and the
only white-space character is the plain space. -/
def SanChar (c : Char) : Prop :=
  jsLower c = c ∧ isDiacritic c = false ∧ c ≠ '-' ∧ c ≠ '_' ∧
    (isJsSpace c = true → c = ' ')

/-- Spec-side characterization of the sub-range choice: a pure function
of a single character (the second character of the hyphen-stripped
canonical last name, or the default `a`). -/
def bucketOfSecond (c : Char) : Char × Char :=
  if 'a' ≤ c ∧ c ≤ 'i' then ('a', 'i')
  else if 'j' ≤ c ∧ c ≤ 'r' then ('j', 'r')
  else ('s', 'z')

theorem toNat_ofNat_small {n : Nat} (h : n < 55296) : (Char.ofNat n).toNat = n := by
  have hv : n.isValidChar := Or.inl h
  simp only [Char.ofNat, hv, dif_pos, Char.ofNatAux, Char.toNat]
  rfl

theorem char_eq_of_toNat_eq {c d : Char} (h : c.toNat = d.toNat) : c = d := by
  apply Char.eq_of_val_eq
  apply UInt32.toNat.inj h

theorem char_eq_iff_toNat {c d : Char} : c = d ↔ c.toNat = d.toNat :=
  ⟨fun h => by rw [h], char_eq_of_toNat_eq⟩

theorem char_le_iff_toNat {c d : Char} : c ≤ d ↔ c.toNat ≤ d.toNat := Iff.rfl

theorem jsLower_toNat (c : Char) :
    (jsLower c).toNat = if 65 ≤ c.toNat ∧ c.toNat ≤ 90 then c.toNat + 32 else c.toNat := by
  unfold jsLower
  split
  · exact toNat_ofNat_small (by have := c.toNat; omega)
  · rfl

theorem jsUpper_toNat (c : Char) :
    (jsUpper c).toNat = if 97 ≤ c.toNat ∧ c.toNat ≤ 122 then c.toNat - 32 else c.toNat := by
  unfold jsUpper
  split
  · exact toNat_ofNat_small (by omega)
  · rfl

theorem jsLower_jsLower (c : Char) : jsLower (jsLower c) = jsLower c := by
  apply char_eq_of_toNat_eq
  rw [jsLower_toNat, jsLower_toNat]
  split_ifs <;> omega

theorem mem_collapseRunsAux {p : Char → Bool} {r : Char} {l : List Char} {b : Bool}
    {c : Char} (h : c ∈ collapseRunsAux p r b l) : c = r ∨ (c ∈ l ∧ p c = false) := by
  induction l generalizing b with
  | nil => simp [collapseRunsAux] at h
  | cons d ds ih =>
    rw [collapseRunsAux] at h
    by_cases hd : p d
    · rw [if_pos hd] at h
      rcases b with _ | _
      · simp only [if_neg Bool.false_ne_true, List.mem_cons] at h
        rcases h with h | h
        · exact Or.inl h
        · rcases ih h with h' | h'
          · exact Or.inl h'
          · exact Or.inr ⟨List.mem_cons_of_mem _ h'.1, h'.2⟩
      · rw [if_pos rfl] at h
        rcases ih h with h' | h'
        · exact Or.inl h'
        · exact Or.inr ⟨List.mem_cons_of_mem _ h'.1, h'.2⟩
    · rw [if_neg hd] at h
      rcases List.mem_cons.mp h with h | h
      · exact Or.inr ⟨by simp [h], by simpa [h] using Bool.of_not_eq_true hd⟩
      · rcases ih h with h' | h'
        · exact Or.inl h'
        · exact Or.inr ⟨List.mem_cons_of_mem _ h'.1, h'.2⟩

theorem collapseRunsAux_id_of_none {p : Char → Bool} {r : Char} {l : List Char}
    (h : ∀ c ∈ l, p c = false) : ∀ b, collapseRunsAux p r b l = l := by
  induction l with
  | nil => intro b; rfl
  | cons d ds ih =>
    intro b
    rw [collapseRunsAux, if_neg (by simp [h d (List.mem_cons_self d ds)]),
      ih (fun c hc => h c (List.mem_cons_of_mem _ hc))]

theorem collapseRunsAux_head_not {p : Char → Bool} {r : Char} {l : List Char}
    {c : Char} (h : (collapseRunsAux p r true l).head? = some c) : p c = false := by
  induction l with
  | nil => simp [collapseRunsAux] at h
  | cons d ds ih =>
    rw [collapseRunsAux] at h
    by_cases hd : p d
    · rw [if_pos hd, if_pos rfl] at h
      exact ih h
    · rw [if_neg hd] at h
      simp only [List.head?_cons, Option.some.injEq] at h
      subst h
      exact Bool.of_not_eq_true hd

theorem collapseRunsAux_flag {p : Char → Bool} {r : Char} {l : List Char}
    (h : ∀ c, l.head? = some c → p c = false) :
    collapseRunsAux p r true l = collapseRunsAux p r false l := by
  cases l with
  | nil => rfl
  | cons d ds =>
    rw [collapseRunsAux, collapseRunsAux, if_neg (by simp [h d rfl]),
      if_neg (by simp [h d rfl])]

theorem noAdjRun_collapseRunsAux (p : Char → Bool) (r : Char) (l : List Char) :
    ∀ b, NoAdjRun p (collapseRunsAux p r b l) := by
  induction l with
  | nil => intro b; exact List.chain'_nil
  | cons d ds ih =>
    intro b
    rw [collapseRunsAux]
    by_cases hd : p d
    · rw [if_pos hd]
      rcases b with _ | _
      · rw [if_neg Bool.false_ne_true]
        exact List.chain'_cons'.mpr
          ⟨fun c hc => Or.inr (collapseRunsAux_head_not hc), ih true⟩
      · rw [if_pos rfl]; exact ih true
    · rw [if_neg hd]
      exact List.chain'_cons'.mpr
        ⟨fun c _ => Or.inl (Bool.of_not_eq_true hd), ih false⟩

theorem collapseRunsAux_false_id {p : Char → Bool} {r : Char} {l : List Char}
    (hadj : NoAdjRun p l) (hr : ∀ c ∈ l, p c = true → c = r) :
    collapseRunsAux p r false l = l := by
  induction l with
  | nil => rfl
  | cons d ds ih =>
    rw [collapseRunsAux]
    rcases List.chain'_cons'.mp hadj with ⟨hhead, htail⟩
    by_cases hd : p d
    · rw [if_pos hd, if_neg Bool.false_ne_true]
      have hdr : d = r := hr d (List.mem_cons_self d ds) (by simpa using hd)
      have hflag : collapseRunsAux p r true ds = collapseRunsAux p r false ds := by
        apply collapseRunsAux_flag
        intro c hc
        rcases hhead c hc with h' | h'
        · exact absurd hd (by simp [h'])
        · exact h'
      rw [hflag, ih htail (fun c hc h' => hr c (List.mem_cons_of_mem _ hc) h'), hdr]
    · rw [if_neg hd, ih htail (fun c hc h' => hr c (List.mem_cons_of_mem _ hc) h')]

theorem dropWhile_id_of_head {p : Char → Bool} {l : List Char}
    (h : ∀ c, l.head? = some c → p c = false) : l.dropWhile p = l := by
  cases l with
  | nil => rfl
  | cons d ds => rw [List.dropWhile_cons, if_neg (by simp [h d rfl])]

theorem head_dropWhile_not {p : Char → Bool} {l : List Char} {c : Char}
    (h : (l.dropWhile p).head? = some c) : p c = false := by
  induction l with
  | nil => simp at h
  | cons d ds ih =>
    rw [List.dropWhile_cons] at h
    by_cases hd : p d
    · rw [if_pos hd] at h; exact ih h
    · rw [if_neg hd] at h
      simp only [List.head?_cons, Option.some.injEq] at h
      subst h
      exact Bool.of_not_eq_true hd

theorem mem_trimJs {l : List Char} {c : Char} (h : c ∈ trimJs l) : c ∈ l := by
  unfold trimJs at h
  rw [List.mem_reverse] at h
  have h1 := (List.dropWhile_sublist _).mem h
  rw [List.mem_reverse] at h1
  exact (List.dropWhile_sublist _).mem h1

theorem trimJs_id {l : List Char}
    (h1 : ∀ c, l.head? = some c → isJsSpace c = false)
    (h2 : ∀ c, l.getLast? = some c → isJsSpace c = false) : trimJs l = l := by
  unfold trimJs
  rw [dropWhile_id_of_head h1, dropWhile_id_of_head (by
    intro c hc
    rw [List.head?_reverse] at hc
    exact h2 c hc), List.reverse_reverse]

theorem trimJs_head_not {l : List Char} {c : Char}
    (h : (trimJs l).head? = some c) : isJsSpace c = false := by
  unfold trimJs at h
  have hsuf : (l.dropWhile isJsSpace).reverse.dropWhile isJsSpace <:+
      (l.dropWhile isJsSpace).reverse := List.dropWhile_suffix _
  have hpre := List.reverse_prefix.mpr hsuf
  rw [List.reverse_reverse] at hpre
  rcases hpre with ⟨t, ht⟩
  rcases hX : ((l.dropWhile isJsSpace).reverse.dropWhile isJsSpace).reverse with _ | ⟨a, as⟩
  · rw [hX] at h; simp at h
  · rw [hX] at h ht
    simp only [List.head?_cons, Option.some.injEq] at h
    subst h
    apply @head_dropWhile_not isJsSpace l
    rw [← ht]
    simp

theorem trimJs_getLast_not {l : List Char} {c : Char}
    (h : (trimJs l).getLast? = some c) : isJsSpace c = false := by
  unfold trimJs at h
  rw [List.getLast?_reverse] at h
  exact head_dropWhile_not h

theorem dol_suffix (l : List Char) : dropOneLeadingHyphen l <:+ l := by
  cases l with
  | nil => exact List.suffix_refl _
  | cons c t =>
    rw [dropOneLeadingHyphen]
    split
    · exact List.suffix_cons c t
    · exact List.suffix_refl _

theorem dol_id {l : List Char} (h : ∀ c, l.head? = some c → c ≠ '-') :
    dropOneLeadingHyphen l = l := by
  cases l with
  | nil => rfl
  | cons c t => rw [dropOneLeadingHyphen, if_neg (h c rfl)]

theorem noAdj_dol {p : Char → Bool} {l : List Char} (h : NoAdjRun p l) :
    NoAdjRun p (dropOneLeadingHyphen l) := by
  cases l with
  | nil => exact h
  | cons c t =>
    rw [dropOneLeadingHyphen]
    split
    · exact (List.chain'_cons'.mp h).2
    · exact h

theorem dol_head_not {l : List Char} (hadj : NoAdjRun isHyphen l) {c : Char}
    (h : (dropOneLeadingHyphen l).head? = some c) : isHyphen c = false := by
  cases l with
  | nil => simp [dropOneLeadingHyphen] at h
  | cons d t =>
    rw [dropOneLeadingHyphen] at h
    split at h
    · rcases (List.chain'_cons'.mp hadj).1 c h with h' | h'
      · subst_vars
        simp [isHyphen] at h'
      · exact h'
    · simp only [List.head?_cons, Option.some.injEq] at h
      subst h
      simp only [isHyphen]
      simpa using by assumption

theorem noAdj_reverse {p : Char → Bool} {l : List Char} (h : NoAdjRun p l) :
    NoAdjRun p l.reverse := by
  unfold NoAdjRun at *
  rw [List.chain'_reverse]
  exact h.imp (fun a b hab => hab.symm)

theorem head?_of_prefixed {l m : List Char} {c : Char} (h : l <+: m)
    (hc : l.head? = some c) : m.head? = some c := by
  rcases h with ⟨t, rfl⟩
  cases l with
  | nil => simp at hc
  | cons a as =>
    simp only [List.head?_cons, Option.some.injEq] at hc
    subst hc
    rfl

theorem stripEdge_prefix_dol (l : List Char) :
    stripEdgeHyphens l <+: dropOneLeadingHyphen l := by
  unfold stripEdgeHyphens
  have hsuf := dol_suffix (dropOneLeadingHyphen l).reverse
  have hpre := List.reverse_prefix.mpr hsuf
  rwa [List.reverse_reverse] at hpre

theorem stripEdge_within (l : List Char) : stripEdgeHyphens l <:+: l :=
  (stripEdge_prefix_dol l).isInfix.trans (dol_suffix l).isInfix

theorem mem_stripEdge {l : List Char} {c : Char} (h : c ∈ stripEdgeHyphens l) :
    c ∈ l := (stripEdge_within l).subset h

theorem noAdj_stripEdge {p : Char → Bool} {l : List Char} (h : NoAdjRun p l) :
    NoAdjRun p (stripEdgeHyphens l) := by
  unfold stripEdgeHyphens
  exact noAdj_reverse (noAdj_dol (noAdj_reverse (noAdj_dol h)))

theorem stripEdge_id {l : List Char}
    (h1 : ∀ c, l.head? = some c → c ≠ '-')
    (h2 : ∀ c, l.getLast? = some c → c ≠ '-') : stripEdgeHyphens l = l := by
  unfold stripEdgeHyphens
  rw [dol_id h1, dol_id (by
    intro c hc
    rw [List.head?_reverse] at hc
    exact h2 c hc), List.reverse_reverse]

theorem stripEdge_head_not {l : List Char} (hadj : NoAdjRun isHyphen l) {c : Char}
    (h : (stripEdgeHyphens l).head? = some c) : isHyphen c = false :=
  dol_head_not hadj (head?_of_prefixed (stripEdge_prefix_dol l) h)

theorem stripEdge_getLast_not {l : List Char} (hadj : NoAdjRun isHyphen l) {c : Char}
    (h : (stripEdgeHyphens l).getLast? = some c) : isHyphen c = false := by
  unfold stripEdgeHyphens at h
  rw [List.getLast?_reverse] at h
  exact dol_head_not (noAdj_reverse (noAdj_dol hadj)) h

theorem map_id_of_fix {f : Char → Char} {l : List Char} (h : ∀ c ∈ l, f c = c) :
    l.map f = l := by
  induction l with
  | nil => rfl
  | cons c cs ih =>
    rw [List.map_cons, h c (List.mem_cons_self c cs),
      ih (fun d hd => h d (List.mem_cons_of_mem _ hd))]

theorem kebabChar_of_mem_canonicalKebab {s : List Char} {c : Char}
    (h : c ∈ canonicalKebab s) : KebabChar c := by
  unfold canonicalKebab at h
  have h1 := mem_stripEdge h
  rcases mem_collapseRunsAux h1 with h2 | ⟨h2, hhyp⟩
  · exact Or.inr (Or.inr h2)
  · rcases mem_collapseRunsAux h2 with h3 | ⟨h3, hsp⟩
    · rw [h3] at hhyp
      simp [isHyphen] at hhyp
    · have h4 := List.of_mem_filter h3
      simp only [keepKebab, Bool.or_eq_true, beq_iff_eq] at h4
      rcases h4 with ((h5 | h5) | h5) | h5
      · exact Or.inl (by simpa [isLowerAZ] using h5)
      · exact Or.inr (Or.inl (by simpa [isDigit09] using h5))
      · exact absurd h5 (by simp [hsp])
      · exact Or.inr (Or.inr h5)

theorem kebabChar_toNat {c : Char} (h : KebabChar c) :
    (97 ≤ c.toNat ∧ c.toNat ≤ 122) ∨ (48 ≤ c.toNat ∧ c.toNat ≤ 57) ∨ c.toNat = 45 := by
  rcases h with h | h | h
  · exact Or.inl h
  · exact Or.inr (Or.inl h)
  · exact Or.inr (Or.inr (char_eq_iff_toNat.mp h))

theorem jsLower_fix_kebab {c : Char} (h : KebabChar c) : jsLower c = c := by
  apply char_eq_of_toNat_eq
  rw [jsLower_toNat]
  have := kebabChar_toNat h
  split_ifs <;> omega

theorem noAdjHyphen_canonicalKebab (s : List Char) :
    NoAdjRun isHyphen (canonicalKebab s) :=
  noAdj_stripEdge (noAdjRun_collapseRunsAux _ _ _ _)

theorem isDiacritic_false_of_kebab {c : Char} (h : KebabChar c) :
    isDiacritic c = false := by
  have := kebabChar_toNat h
  simp only [isDiacritic]
  rw [decide_eq_false_iff_not]
  omega

theorem isJsSpace_false_of_kebab {c : Char} (h : KebabChar c) :
    isJsSpace c = false := by
  have := kebabChar_toNat h
  simp only [isJsSpace]
  rw [decide_eq_false_iff_not]
  omega

theorem keepKebab_true_of_kebab {c : Char} (h : KebabChar c) :
    keepKebab c = true := by
  rcases h with h | h | h
  · simp [keepKebab, isLowerAZ, h]
  · simp [keepKebab, isDigit09, h]
  · simp [keepKebab, h]

theorem canonicalKebab_head_not_hyphen {s : List Char} {c : Char}
    (h : (canonicalKebab s).head? = some c) : c ≠ '-' := by
  unfold canonicalKebab at h
  have := stripEdge_head_not (noAdjRun_collapseRunsAux _ _ _ _) h
  simpa [isHyphen] using this

theorem canonicalKebab_getLast_not_hyphen {s : List Char} {c : Char}
    (h : (canonicalKebab s).getLast? = some c) : c ≠ '-' := by
  unfold canonicalKebab at h
  have := stripEdge_getLast_not (noAdjRun_collapseRunsAux _ _ _ _) h
  simpa [isHyphen] using this

theorem canonicalKebab_idem (s : List Char) :
    canonicalKebab (canonicalKebab s) = canonicalKebab s := by
  have hchar : ∀ c ∈ canonicalKebab s, KebabChar c :=
    fun c hc => kebabChar_of_mem_canonicalKebab hc
  have hfix1 : List.map jsLower (canonicalKebab s) = canonicalKebab s :=
    map_id_of_fix (fun c hc => jsLower_fix_kebab (hchar c hc))
  have hfix2 : List.filter (fun c => !(isDiacritic c)) (canonicalKebab s) =
      canonicalKebab s :=
    List.filter_eq_self.mpr (fun c hc => by
      rw [Bool.not_eq_true', isDiacritic_false_of_kebab (hchar c hc)])
  have hfix3 : List.filter keepKebab (canonicalKebab s) = canonicalKebab s :=
    List.filter_eq_self.mpr (fun c hc => keepKebab_true_of_kebab (hchar c hc))
  have hfix4 : collapseRuns isJsSpace '-' (canonicalKebab s) = canonicalKebab s :=
    collapseRunsAux_id_of_none
      (fun c hc => isJsSpace_false_of_kebab (hchar c hc)) false
  have hfix5 : collapseRuns isHyphen '-' (canonicalKebab s) = canonicalKebab s :=
    collapseRunsAux_false_id (noAdjHyphen_canonicalKebab s)
      (fun c _ hc => beq_iff_eq.mp hc)
  have hfix6 : stripEdgeHyphens (canonicalKebab s) = canonicalKebab s :=
    stripEdge_id (fun c hc => canonicalKebab_head_not_hyphen hc)
      (fun c hc => canonicalKebab_getLast_not_hyphen hc)
  conv_lhs => rw [canonicalKebab]
  rw [nfd, hfix1, hfix2, hfix3, hfix4, hfix5, hfix6]

theorem sanChar_of_mem_sanitizeName {s : List Char} {c : Char}
    (h : c ∈ sanitizeName s) : SanChar c := by
  unfold sanitizeName at h
  have h1 := mem_trimJs h
  rcases mem_collapseRunsAux h1 with h2 | ⟨h2, hsp⟩
  · subst h2
    exact ⟨by decide, by decide, by decide, by decide, fun _ => rfl⟩
  · rcases List.mem_map.mp h2 with ⟨d, hd, hcd⟩
    have hdnd := List.of_mem_filter hd
    have hdm := List.mem_of_mem_filter hd
    rcases List.mem_map.mp hdm with ⟨e, _, hde⟩
    by_cases hdash : d = '-' ∨ d = '_'
    · rw [dashToSpace, if_pos hdash] at hcd
      subst hcd
      simp [isJsSpace] at hsp
    · rw [dashToSpace, if_neg hdash] at hcd
      subst hcd
      push_neg at hdash
      refine ⟨?_, ?_, hdash.1, hdash.2, fun hc => absurd hc (by simp [hsp])⟩
      · rw [← hde, jsLower_jsLower]
      · simpa using hdnd

theorem trimJs_within (l : List Char) : trimJs l <:+: l := by
  unfold trimJs
  have h1 : (l.dropWhile isJsSpace).reverse.dropWhile isJsSpace <:+
      (l.dropWhile isJsSpace).reverse := List.dropWhile_suffix _
  have h2 := List.reverse_prefix.mpr h1
  rw [List.reverse_reverse] at h2
  exact h2.isInfix.trans (List.dropWhile_suffix _).isInfix

theorem noAdj_trimJs {p : Char → Bool} {l : List Char} (h : NoAdjRun p l) :
    NoAdjRun p (trimJs l) :=
  List.Chain'.infix h (trimJs_within l)

theorem noAdjSpace_sanitizeName (s : List Char) :
    NoAdjRun isJsSpace (sanitizeName s) := by
  unfold sanitizeName
  exact noAdj_trimJs (noAdjRun_collapseRunsAux _ _ _ false)

theorem sanitizeName_head_not {s : List Char} {c : Char}
    (h : (sanitizeName s).head? = some c) : isJsSpace c = false := by
  unfold sanitizeName at h
  exact trimJs_head_not h

theorem sanitizeName_getLast_not {s : List Char} {c : Char}
    (h : (sanitizeName s).getLast? = some c) : isJsSpace c = false := by
  unfold sanitizeName at h
  exact trimJs_getLast_not h

theorem sanitizeName_idem (s : List Char) :
    sanitizeName (sanitizeName s) = sanitizeName s := by
  have hchar : ∀ c ∈ sanitizeName s, SanChar c :=
    fun c hc => sanChar_of_mem_sanitizeName hc
  have hfix1 : List.map jsLower (sanitizeName s) = sanitizeName s :=
    map_id_of_fix (fun c hc => (hchar c hc).1)
  have hfix2 : List.filter (fun c => !(isDiacritic c)) (sanitizeName s) =
      sanitizeName s :=
    List.filter_eq_self.mpr (fun c hc => by
      rw [Bool.not_eq_true', (hchar c hc).2.1])
  have hfix3 : List.map dashToSpace (sanitizeName s) = sanitizeName s :=
    map_id_of_fix (fun c hc => by
      rw [dashToSpace, if_neg (by
        rcases hchar c hc with ⟨_, _, hh, hu, _⟩
        rintro (h' | h')
        · exact hh h'
        · exact hu h')])
  have hfix4 : collapseRuns isJsSpace ' ' (sanitizeName s) = sanitizeName s :=
    collapseRunsAux_false_id (noAdjSpace_sanitizeName s)
      (fun c hc h' => (hchar c hc).2.2.2.2 h')
  have hfix5 : trimJs (sanitizeName s) = sanitizeName s :=
    trimJs_id
      (fun c hc => sanitizeName_head_not hc)
      (fun c hc => sanitizeName_getLast_not hc)
  conv_lhs => rw [sanitizeName]
  rw [nfd, hfix1, hfix2, hfix3, hfix4, hfix5]

theorem mem_splits {s : List Char} {q : List Char × List Char} :
    q ∈ splits s ↔ q.1 ++ q.2 = s := by
  induction s generalizing q with
  | nil =>
    rcases q with ⟨u, v⟩
    simp [splits, List.append_eq_nil]
  | cons c cs ih =>
    rcases q with ⟨u, v⟩
    simp only [splits, List.mem_cons, List.mem_map, Prod.mk.injEq]
    constructor
    · rintro (⟨rfl, rfl⟩ | ⟨⟨u', v'⟩, hq, rfl, rfl⟩)
      · rfl
      · have := ih.mp hq
        simp only at this
        simp [← this]
    · intro happ
      cases u with
      | nil => exact Or.inl ⟨rfl, by simpa using happ⟩
      | cons a as =>
        have ha : a = c := by
          have := congrArg List.head? happ
          simpa using this
        have has : as ++ v = cs := by
          have := congrArg List.tail happ
          simpa using this
        exact Or.inr ⟨(as, v), ih.mpr has, by rw [ha], rfl⟩

theorem mtch_cat {a b : RE} {s : List Char} :
    mtch (.cat a b) s = true ↔
      ∃ u v, u ++ v = s ∧ mtch a u = true ∧ mtch b v = true := by
  simp only [mtch, List.any_eq_true, Bool.and_eq_true]
  constructor
  · rintro ⟨⟨u, v⟩, hq, h1, h2⟩
    exact ⟨u, v, mem_splits.mp hq, h1, h2⟩
  · rintro ⟨u, v, happ, h1, h2⟩
    exact ⟨(u, v), mem_splits.mpr happ, h1, h2⟩

theorem mtch_cls {p : Char → Bool} {s : List Char} :
    mtch (.cls p) s = true ↔ ∃ c, s = [c] ∧ p c = true := by
  cases s with
  | nil => simp [mtch]
  | cons c cs =>
    cases cs with
    | nil =>
      simp only [mtch]
      constructor
      · intro h; exact ⟨c, rfl, h⟩
      · rintro ⟨d, hd, hp⟩
        have : c = d := by simpa using congrArg List.head? hd
        rwa [this]
    | cons d ds => simp [mtch]

theorem mtch_eps {s : List Char} : mtch .eps s = true ↔ s = [] := by
  simp [mtch, List.isEmpty_iff]

theorem mtch_reLit {cs s : List Char} :
    mtch (reLit cs) s = true ↔ List.map jsUpper s = List.map jsUpper cs := by
  induction cs generalizing s with
  | nil =>
    rw [reLit, mtch_eps]
    simp [List.map_eq_nil_iff]
  | cons c cs ih =>
    rw [reLit, mtch_cat]
    constructor
    · rintro ⟨u, v, happ, h1, h2⟩
      rcases mtch_cls.mp h1 with ⟨d, rfl, hp⟩
      subst happ
      rw [List.singleton_append, List.map_cons, List.map_cons, ih.mp h2,
        beq_iff_eq.mp hp]
    · intro h
      cases s with
      | nil => simp at h
      | cons d t =>
        rw [List.map_cons, List.map_cons] at h
        have h1 : jsUpper d = jsUpper c := by simpa using congrArg List.head? h
        have h2 : List.map jsUpper t = List.map jsUpper cs := by
          simpa using congrArg List.tail h
        exact ⟨[d], t, rfl, mtch_cls.mpr ⟨d, rfl, beq_iff_eq.mpr h1⟩, ih.mpr h2⟩

theorem mtch_reDigits4 {s : List Char} :
    mtch reDigits4 s = true ↔ s.length = 4 ∧ ∀ c ∈ s, isDigit09 c = true := by
  rw [reDigits4, mtch_cat]
  constructor
  · rintro ⟨u1, v1, happ1, h1, h2⟩
    rcases mtch_cls.mp h1 with ⟨a, rfl, ha⟩
    rcases mtch_cat.mp h2 with ⟨u2, v2, happ2, h3, h4⟩
    rcases mtch_cls.mp h3 with ⟨b, rfl, hb⟩
    rcases mtch_cat.mp h4 with ⟨u3, v3, happ3, h5, h6⟩
    rcases mtch_cls.mp h5 with ⟨c, rfl, hc⟩
    rcases mtch_cls.mp h6 with ⟨d, rfl, hd⟩
    subst happ3; subst happ2; subst happ1
    refine ⟨rfl, ?_⟩
    intro e he
    simp only [List.cons_append, List.nil_append, List.mem_cons,
      List.not_mem_nil, or_false] at he
    rcases he with rfl | rfl | rfl | rfl
    · exact ha
    · exact hb
    · exact hc
    · exact hd
  · rintro ⟨hlen, hdig⟩
    match s, hlen with
    | [a, b, c, d], _ =>
      refine ⟨[a], [b, c, d], rfl, mtch_cls.mpr ⟨a, rfl, hdig a (by simp)⟩, ?_⟩
      refine mtch_cat.mpr ⟨[b], [c, d], rfl, mtch_cls.mpr ⟨b, rfl, hdig b (by simp)⟩, ?_⟩
      refine mtch_cat.mpr ⟨[c], [d], rfl, mtch_cls.mpr ⟨c, rfl, hdig c (by simp)⟩,
        mtch_cls.mpr ⟨d, rfl, hdig d (by simp)⟩⟩

theorem upper_eq_iff_lower {c x : Char} (hx : KebabChar x) :
    jsUpper c = jsUpper x ↔ jsLower c = x := by
  rw [char_eq_iff_toNat, char_eq_iff_toNat, jsUpper_toNat, jsUpper_toNat,
    jsLower_toNat]
  have := kebabChar_toNat hx
  split_ifs <;> omega

theorem mapUpper_eq_iff_mapLower {u x : List Char} (hx : ∀ c ∈ x, KebabChar c) :
    List.map jsUpper u = List.map jsUpper x ↔ List.map jsLower u = x := by
  induction x generalizing u with
  | nil => simp [List.map_eq_nil_iff]
  | cons c cs ih =>
    cases u with
    | nil =>
      simp only [List.map_nil, List.map_cons]
      constructor
      · intro h; exact absurd h (by simp)
      · intro h; exact absurd h (by simp)
    | cons a as =>
      simp only [List.map_cons, List.cons.injEq]
      rw [upper_eq_iff_lower (hx c (List.mem_cons_self c cs)),
        ih (fun d hd => hx d (List.mem_cons_of_mem _ hd))]

theorem digit_toNat {c : Char} (h : isDigit09 c = true) :
    48 ≤ c.toNat ∧ c.toNat ≤ 57 := by
  simpa [isDigit09, decide_eq_true_iff] using h

theorem jsLower_fix_digit {c : Char} (h : isDigit09 c = true) : jsLower c = c := by
  apply char_eq_of_toNat_eq
  rw [jsLower_toNat]
  have := digit_toNat h
  split_ifs <;> omega

theorem digit_lower_inv {c x : Char} (hx : isDigit09 x = true)
    (h : jsLower c = x) : c = x := by
  apply char_eq_of_toNat_eq
  rw [char_eq_iff_toNat, jsLower_toNat] at h
  have := digit_toNat hx
  by_cases hc : 65 ≤ c.toNat ∧ c.toNat ≤ 90
  · rw [if_pos hc] at h; omega
  · rw [if_neg hc] at h; omega

theorem wordHyphenCls_iff {c : Char} : wordHyphenCls c = true ↔
    (65 ≤ (jsUpper c).toNat ∧ (jsUpper c).toNat ≤ 90) ∨
      (48 ≤ (jsUpper c).toNat ∧ (jsUpper c).toNat ≤ 57) ∨
      (jsUpper c).toNat = 45 := by
  unfold wordHyphenCls
  rw [decide_eq_true_iff, char_eq_iff_toNat,
    show ('-').toNat = 45 from rfl]

theorem wordHyphenCls_of_upper_eq {c x : Char} (hx : KebabChar x)
    (h : jsUpper c = jsUpper x) : wordHyphenCls c = true := by
  rw [wordHyphenCls_iff, h, jsUpper_toNat]
  have := kebabChar_toNat hx
  split_ifs <;> omega

theorem map_eq_append_split {f : Char → Char} {l s1 s2 : List Char}
    (h : List.map f l = s1 ++ s2) :
    ∃ l1 l2, l = l1 ++ l2 ∧ List.map f l1 = s1 ∧ List.map f l2 = s2 := by
  induction s1 generalizing l with
  | nil => exact ⟨[], l, rfl, rfl, by simpa using h⟩
  | cons c cs ih =>
    cases l with
    | nil => simp at h
    | cons a as =>
      simp only [List.map_cons, List.cons_append, List.cons.injEq] at h
      rcases ih h.2 with ⟨l1, l2, rfl, hm1, hm2⟩
      exact ⟨a :: l1, l2, rfl, by simp [h.1, hm1], hm2⟩

theorem map_eq_cons_hyphen_split {f : Char → Char} {l s2 : List Char}
    (h : List.map f l = '-' :: s2) :
    ∃ l1 l2, l = l1 ++ l2 ∧ List.map f l1 = ['-'] ∧ List.map f l2 = s2 :=
  map_eq_append_split (show List.map f l = ['-'] ++ s2 from h)

theorem kebabChar_hyphen_list : ∀ c ∈ ['-'], KebabChar c := by
  intro c hc
  rw [List.mem_singleton] at hc
  exact Or.inr (Or.inr hc)

theorem eq_of_mapLower_digits {u d : List Char} (hd : ∀ c ∈ d, isDigit09 c = true)
    (h : List.map jsLower u = d) : u = d := by
  induction d generalizing u with
  | nil => simpa [List.map_eq_nil_iff] using h
  | cons c cs ih =>
    cases u with
    | nil => simp at h
    | cons a as =>
      simp only [List.map_cons, List.cons.injEq] at h
      rw [digit_lower_inv (hd c (List.mem_cons_self c cs)) h.1,
        ih (fun x hx => hd x (List.mem_cons_of_mem _ hx)) h.2]

theorem exactRegex_match_iff (last first cand : List Char) :
    mtch (buildExactRegex last first) cand = true ↔
      ∃ d, d.length = 4 ∧ (∀ c ∈ d, isDigit09 c = true) ∧
        List.map jsLower cand =
          canonicalKebab last ++ '-' :: (canonicalKebab first ++ '-' :: d) := by
  have hkL : ∀ c ∈ canonicalKebab last, KebabChar c :=
    fun c hc => kebabChar_of_mem_canonicalKebab hc
  have hkF : ∀ c ∈ canonicalKebab first, KebabChar c :=
    fun c hc => kebabChar_of_mem_canonicalKebab hc
  constructor
  · intro h
    rw [buildExactRegex] at h
    rcases mtch_cat.mp h with ⟨u1, r1, happ1, hm1, h2⟩
    rcases mtch_cat.mp h2 with ⟨u2, r2, happ2, hm2, h3⟩
    rcases mtch_cat.mp h3 with ⟨u3, r3, happ3, hm3, h4⟩
    rcases mtch_cat.mp h4 with ⟨u4, u5, happ4, hm4, hm5⟩
    have hL := (mapUpper_eq_iff_mapLower hkL).mp (mtch_reLit.mp hm1)
    have hh2 := (mapUpper_eq_iff_mapLower kebabChar_hyphen_list).mp
      (mtch_reLit.mp hm2)
    have hF := (mapUpper_eq_iff_mapLower hkF).mp (mtch_reLit.mp hm3)
    have hh4 := (mapUpper_eq_iff_mapLower kebabChar_hyphen_list).mp
      (mtch_reLit.mp hm4)
    rcases mtch_reDigits4.mp hm5 with ⟨hlen, hdig⟩
    refine ⟨List.map jsLower u5, by simpa using hlen, ?_, ?_⟩
    · intro c hc
      rcases List.mem_map.mp hc with ⟨a, ha, rfl⟩
      rw [jsLower_fix_digit (hdig a ha)]
      exact hdig a ha
    · subst happ4; subst happ3; subst happ2; subst happ1
      simp [List.map_append, hL, hh2, hF, hh4]
  · rintro ⟨d, hlen, hdig, happ⟩
    rcases map_eq_append_split happ with ⟨u1, r1, rfl, hL, hrest1⟩
    rcases map_eq_cons_hyphen_split hrest1 with ⟨u2, r2, rfl, hh2, hrest2⟩
    rcases map_eq_append_split hrest2 with ⟨u3, r3, rfl, hF, hrest3⟩
    rcases map_eq_cons_hyphen_split hrest3 with ⟨u4, u5, rfl, hh4, hd5⟩
    have hu5 : u5 = d := eq_of_mapLower_digits hdig hd5
    rw [buildExactRegex]
    refine mtch_cat.mpr ⟨u1, _, rfl,
      mtch_reLit.mpr ((mapUpper_eq_iff_mapLower hkL).mpr hL), ?_⟩
    refine mtch_cat.mpr ⟨u2, _, rfl,
      mtch_reLit.mpr ((mapUpper_eq_iff_mapLower kebabChar_hyphen_list).mpr hh2), ?_⟩
    refine mtch_cat.mpr ⟨u3, _, rfl,
      mtch_reLit.mpr ((mapUpper_eq_iff_mapLower hkF).mpr hF), ?_⟩
    refine mtch_cat.mpr ⟨u4, u5, rfl,
      mtch_reLit.mpr ((mapUpper_eq_iff_mapLower kebabChar_hyphen_list).mpr hh4), ?_⟩
    refine mtch_reDigits4.mpr ⟨by rw [hu5, hlen], ?_⟩
    intro c hc
    rw [hu5] at hc
    exact hdig c hc

theorem mtch_clsStar {p : Char → Bool} {s : List Char} :
    mtch (.clsStar p) s = true ↔ ∀ c ∈ s, p c = true := by
  simp [mtch, List.all_eq_true]

theorem mtch_clsPlus {p : Char → Bool} {s : List Char} :
    mtch (.clsPlus p) s = true ↔ s ≠ [] ∧ ∀ c ∈ s, p c = true := by
  simp only [mtch, Bool.and_eq_true, Bool.not_eq_true', List.all_eq_true]
  rw [List.isEmpty_eq_false_iff_exists_mem]
  constructor
  · rintro ⟨⟨c, hc⟩, hall⟩
    exact ⟨fun hnil => by rw [hnil] at hc; exact absurd hc (List.not_mem_nil c), hall⟩
  · rintro ⟨hne, hall⟩
    rcases List.exists_mem_of_ne_nil s hne with ⟨c, hc⟩
    exact ⟨⟨c, hc⟩, hall⟩

theorem all_wordHyphen_of_mapLower {u x : List Char}
    (hx : ∀ c ∈ x, KebabChar c) (h : List.map jsLower u = x) :
    ∀ c ∈ u, wordHyphenCls c = true := by
  intro c hc
  have hmem : jsLower c ∈ x := h ▸ List.mem_map_of_mem jsLower hc
  exact wordHyphenCls_of_upper_eq (hx _ hmem)
    ((upper_eq_iff_lower (hx _ hmem)).mpr rfl)

theorem tier_subsumption {last first : List Char}
    (hL : canonicalKebab last ≠ []) (hF : canonicalKebab first ≠ [])
    {cand : List Char} (h : mtch (buildExactRegex last first) cand = true) :
    mtch (buildLastPlusFirstInitialRegex last first) cand = true ∧
      mtch (buildLastOnlyRegex last) cand = true ∧
      mtch (buildFirstLetterRegex last) cand = true := by
  have hkL : ∀ c ∈ canonicalKebab last, KebabChar c :=
    fun c hc => kebabChar_of_mem_canonicalKebab hc
  have hkF : ∀ c ∈ canonicalKebab first, KebabChar c :=
    fun c hc => kebabChar_of_mem_canonicalKebab hc
  rcases exactRegex_match_iff last first cand |>.mp h with ⟨d, hlen, hdig, happ⟩
  rcases map_eq_append_split happ with ⟨u1, r1, rfl, hu1, hrest1⟩
  rcases map_eq_cons_hyphen_split hrest1 with ⟨u2, r2, rfl, hu2, hrest2⟩
  rcases map_eq_append_split hrest2 with ⟨u3, r3, rfl, hu3, hrest3⟩
  rcases map_eq_cons_hyphen_split hrest3 with ⟨u4, u5, rfl, hu4, hu5⟩
  have hu5d : u5 = d := eq_of_mapLower_digits hdig hu5
  have hdm : mtch reDigits4 u5 = true := by
    refine mtch_reDigits4.mpr ⟨by rw [hu5d, hlen], ?_⟩
    intro c hc
    rw [hu5d] at hc
    exact hdig c hc
  have hm1 : mtch (reLit (canonicalKebab last)) u1 = true :=
    mtch_reLit.mpr ((mapUpper_eq_iff_mapLower hkL).mpr hu1)
  have hm2 : mtch (reLit ['-']) u2 = true :=
    mtch_reLit.mpr ((mapUpper_eq_iff_mapLower kebabChar_hyphen_list).mpr hu2)
  have hm4 : mtch (reLit ['-']) u4 = true :=
    mtch_reLit.mpr ((mapUpper_eq_iff_mapLower kebabChar_hyphen_list).mpr hu4)
  rcases hFe : canonicalKebab first with _ | ⟨f0, frest⟩
  · exact absurd hFe hF
  rw [hFe] at hu3 hkF
  cases u3 with
  | nil => simp at hu3
  | cons v0 vrest =>
    simp only [List.map_cons, List.cons.injEq] at hu3
    have hv0 : jsLower v0 = f0 := hu3.1
    have hvrest : List.map jsLower vrest = frest := hu3.2
    have hkf0 : KebabChar f0 := hkF f0 (List.mem_cons_self f0 frest)
    have hmv0 : mtch (reLit [f0]) [v0] = true := by
      apply mtch_reLit.mpr
      refine (@mapUpper_eq_iff_mapLower [v0] [f0] ?_).mpr ?_
      · intro c hc
        rw [List.mem_singleton] at hc
        rw [hc]
        exact hkf0
      · simp [hv0]
    have hwv : ∀ c ∈ vrest, wordHyphenCls c = true :=
      all_wordHyphen_of_mapLower
        (fun c hc => hkF c (List.mem_cons_of_mem _ hc)) hvrest
    have hwv0 : wordHyphenCls v0 = true :=
      wordHyphenCls_of_upper_eq hkf0 ((upper_eq_iff_lower hkf0).mpr hv0)
    have hwu2 : ∀ c ∈ u2, wordHyphenCls c = true :=
      all_wordHyphen_of_mapLower kebabChar_hyphen_list hu2
    refine ⟨?_, ?_, ?_⟩
    · rw [buildLastPlusFirstInitialRegex, hFe]
      refine mtch_cat.mpr ⟨u1, _, rfl, hm1, ?_⟩
      refine mtch_cat.mpr ⟨u2, _, rfl, hm2, ?_⟩
      refine mtch_cat.mpr ⟨[v0], vrest ++ (u4 ++ u5), by simp, ?_, ?_⟩
      · simpa using hmv0
      refine mtch_cat.mpr ⟨vrest, u4 ++ u5, rfl, mtch_clsStar.mpr hwv, ?_⟩
      exact mtch_cat.mpr ⟨u4, u5, rfl, hm4, hdm⟩
    · rw [buildLastOnlyRegex]
      refine mtch_cat.mpr ⟨u1, _, rfl, hm1, ?_⟩
      refine mtch_cat.mpr ⟨u2, _, rfl, hm2, ?_⟩
      refine mtch_cat.mpr ⟨v0 :: vrest, u4 ++ u5, rfl, ?_, ?_⟩
      · refine mtch_clsPlus.mpr ⟨by simp, ?_⟩
        intro c hc
        rcases List.mem_cons.mp hc with rfl | hc'
        · exact hwv0
        · exact hwv c hc'
      exact mtch_cat.mpr ⟨u4, u5, rfl, hm4, hdm⟩
    · rw [buildFirstLetterRegex]
      rcases hLe : canonicalKebab last with _ | ⟨l0, lrest⟩
      · exact absurd hLe hL
      rw [hLe] at hu1 hkL
      cases u1 with
      | nil => simp at hu1
      | cons w0 wrest =>
        simp only [List.map_cons, List.cons.injEq] at hu1
        have hw0 : jsLower w0 = l0 := hu1.1
        have hwrest : List.map jsLower wrest = lrest := hu1.2
        have hkl0 : KebabChar l0 := hkL l0 (List.mem_cons_self l0 lrest)
        have hlit : mtch (reLit (List.map jsLower (List.take 1 (l0 :: lrest)))) [w0] = true := by
          simp only [List.take_succ_cons, List.take_zero, List.map_cons, List.map_nil]
          apply mtch_reLit.mpr
          refine (@mapUpper_eq_iff_mapLower [w0] [jsLower l0] ?_).mpr ?_
          · intro c hc
            rw [List.mem_singleton] at hc
            rw [hc, jsLower_fix_kebab hkl0]
            exact hkl0
          · simp [jsLower_fix_kebab hkl0, hw0]
        refine mtch_cat.mpr ⟨[w0], wrest ++ (u2 ++ (v0 :: vrest)) ++ (u4 ++ u5),
          by simp, hlit, ?_⟩
        refine mtch_cat.mpr ⟨wrest ++ (u2 ++ (v0 :: vrest)), u4 ++ u5, by simp, ?_, ?_⟩
        · refine mtch_clsStar.mpr ?_
          intro c hc
          rcases List.mem_append.mp hc with hc' | hc'
          · exact all_wordHyphen_of_mapLower
              (fun x hx => hkL x (List.mem_cons_of_mem _ hx)) hwrest c hc'
          · rcases List.mem_append.mp hc' with hc'' | hc''
            · exact hwu2 c hc''
            · rcases List.mem_cons.mp hc'' with rfl | hc3
              · exact hwv0
              · exact hwv c hc3
        exact mtch_cat.mpr ⟨u4, u5, rfl, hm4, hdm⟩

theorem bucketOfSecond_cases (c : Char) :
    bucketOfSecond c = ('a', 'i') ∨ bucketOfSecond c = ('j', 'r') ∨
      bucketOfSecond c = ('s', 'z') := by
  unfold bucketOfSecond
  split_ifs <;> simp

theorem jsUpper_letter_range {c : Char} (h1 : 97 ≤ c.toNat) (h2 : c.toNat ≤ 122) :
    65 ≤ (jsUpper c).toNat ∧ (jsUpper c).toNat ≤ 90 := by
  rw [jsUpper_toNat]
  split_ifs <;> omega

theorem computeLetterAndRange_ok {last : List Char} {c0 : Char} {rest : List Char}
    (hclean : cleanOf last = c0 :: rest)
    (hc0 : 97 ≤ c0.toNat) (hc0' : c0.toNat ≤ 122) :
    computeLetterAndRange last = .ok ⟨[jsUpper c0],
      [jsUpper c0, (bucketOfSecond (jsLower (rest.headD 'a'))).1, '-',
        jsUpper c0, (bucketOfSecond (jsLower (rest.headD 'a'))).2]⟩ := by
  rw [computeLetterAndRange, hclean]
  dsimp only
  rw [decide_eq_true (jsUpper_letter_range hc0 hc0'), Bool.not_true,
    if_neg (by simp)]
  simp only [decide_eq_true_eq, bucketOfSecond]

theorem computeLetterAndRange_error {last : List Char}
    (h : ∀ c0 rest, cleanOf last = c0 :: rest →
      ¬(65 ≤ (jsUpper c0).toNat ∧ (jsUpper c0).toNat ≤ 90)) :
    computeLetterAndRange last = .error .jsError := by
  rw [computeLetterAndRange]
  rcases hclean : cleanOf last with _ | ⟨c0, rest⟩
  · rfl
  · dsimp only
    rw [if_pos (by
      rw [decide_eq_false (h c0 rest hclean)]
      rfl)]

theorem runLaterTiers_eq (env : QueryEnv) (entry : Entry) :
    runLaterTiers env entry = entry := by
  rcases env with ⟨er, t1, t2, t3, t4, doc⟩
  cases t2 <;> cases t3 <;> cases t4 <;> rfl

theorem getHeadshotImageString_throws (doc : List SpanNode) :
    getHeadshotImageString doc = .error .referenceError := by
  unfold getHeadshotImageString
  cases h : doc.find? (fun sp => hasSub headshotLabel sp.text) <;>
    simp [h, lookupVar]

theorem runTiers_headshot (env : QueryEnv) (entry : Entry) :
    (runTiers env entry).headshotImgString = entry.headshotImgString := by
  unfold runTiers
  cases h1 : env.tier1 <;>
    simp [getHeadshotImageString_throws, runLaterTiers_eq]

theorem runTiers_name (env : QueryEnv) (entry : Entry) :
    (runTiers env entry).name = entry.name := by
  unfold runTiers
  cases h1 : env.tier1 <;>
    simp [getHeadshotImageString_throws, runLaterTiers_eq]

theorem runTiers_no_click {env : QueryEnv} (h : env.tier1 ≠ .clickedTrue)
    (entry : Entry) : runTiers env entry = entry := by
  unfold runTiers
  cases h1 : env.tier1
  · exact absurd h1 h
  · simp [runLaterTiers_eq]
  · simp [runLaterTiers_eq]

theorem runTiers_click {env : QueryEnv} (h : env.tier1 = .clickedTrue)
    (entry : Entry) : runTiers env entry = { entry with found := true } := by
  unfold runTiers
  rw [h]
  simp [getHeadshotImageString_throws, runLaterTiers_eq]

theorem processPerson_headshot (env : QueryEnv) (name : List Char) (entry : Entry) :
    (processPerson env name entry).headshotImgString = entry.headshotImgString := by
  unfold processPerson runQueryBody
  cases hp : parsePersonName name
  case error => rfl
  case ok fl =>
    dsimp only
    cases hc : computeLetterAndRange fl.2
    case error => rfl
    case ok =>
      dsimp only
      cases hx : env.expandResult
      case error => rfl
      case ok =>
        dsimp only
        exact runTiers_headshot env entry

theorem processPerson_name (env : QueryEnv) (name : List Char) (entry : Entry) :
    (processPerson env name entry).name = entry.name := by
  unfold processPerson runQueryBody
  cases hp : parsePersonName name
  case error => rfl
  case ok fl =>
    dsimp only
    cases hc : computeLetterAndRange fl.2
    case error => rfl
    case ok =>
      dsimp only
      cases hx : env.expandResult
      case error => rfl
      case ok =>
        dsimp only
        exact runTiers_name env entry

theorem processPerson_no_click {env : QueryEnv} (h : env.tier1 ≠ .clickedTrue)
    (name : List Char) (entry : Entry) : processPerson env name entry = entry := by
  unfold processPerson runQueryBody
  cases hp : parsePersonName name
  case error => rfl
  case ok fl =>
    dsimp only
    cases hc : computeLetterAndRange fl.2
    case error => rfl
    case ok =>
      dsimp only
      cases hx : env.expandResult
      case error => rfl
      case ok =>
        dsimp only
        exact runTiers_no_click h entry

theorem processPerson_parse_error {name : List Char}
    (h : parsePersonName name = .error .jsError) (env : QueryEnv) (entry : Entry) :
    processPerson env name entry = entry := by
  unfold processPerson runQueryBody
  rw [h]

theorem runQueryBody_parse_error {name : List Char}
    (h : parsePersonName name = .error .jsError) (env : QueryEnv) (entry : Entry) :
    runQueryBody env name entry = (entry, some .jsError) := by
  unfold runQueryBody
  rw [h]

theorem runBatchFrom_length (env : Nat → QueryEnv) (i : Nat)
    (names : List (List Char)) : (runBatchFrom env i names).length = names.length := by
  induction names generalizing i with
  | nil => rfl
  | cons n ns ih => simp [runBatchFrom, ih]

theorem runBatchFrom_get? (env : Nat → QueryEnv) (i k : Nat)
    (names : List (List Char)) :
    (runBatchFrom env i names).get? k =
      (names.get? k).map (fun n => processPerson (env (i + k)) n (initEntry n)) := by
  induction names generalizing i k with
  | nil => simp [runBatchFrom]
  | cons n ns ih =>
    cases k with
    | zero => simp [runBatchFrom]
    | succ k' =>
      rw [runBatchFrom]
      simp only [List.get?_cons_succ]
      rw [ih (i + 1) k']
      have : i + 1 + k' = i + (k' + 1) := by omega
      rw [this]

theorem runBatch_get? (env : Nat → QueryEnv) (k : Nat) (names : List (List Char)) :
    (runBatch env names).get? k =
      (names.get? k).map (fun n => processPerson (env k) n (initEntry n)) := by
  unfold runBatch
  rw [runBatchFrom_get?]
  simp

theorem headshot_nul_runBatchFrom (env : Nat → QueryEnv)
    (names : List (List Char)) : ∀ i, ∀ e ∈ runBatchFrom env i names,
      e.headshotImgString = .nul := by
  induction names with
  | nil => intro i e he; simp [runBatchFrom] at he
  | cons n ns ih =>
    intro i e he
    rcases List.mem_cons.mp he with rfl | he'
    · rw [processPerson_headshot]
      rfl
    · exact ih (i + 1) e he'

/-- C1: the claim says a success at any of the four tiers yields
`found = true` with an extracted reference.  The code diverges: on a
tier-2 success (exact tier timed out) the loop body just `continue`s,
so the entry keeps `found = false, headshotImgString = null`; and even
on an exact-tier success `found` is set but `getHeadshotImageString`
throws, so the reference is never stored.  This theorem evaluates the
loop body at both failing scenarios. -/
theorem claim_c1_divergence :
    processPerson envTier2Click nameJohnSmith (initEntry nameJohnSmith) =
      { name := nameJohnSmith, found := false, headshotImgString := .nul } ∧
    processPerson envExactClick nameJohnSmith (initEntry nameJohnSmith) =
      { name := nameJohnSmith, found := true, headshotImgString := .nul } :=
  ⟨by decide, by decide⟩

/-- C2: for every last name whose hyphen-stripped canonical form starts
with an ASCII letter, `computeLetterAndRange` succeeds, its sub-range
bucket is one of exactly the three fixed ranges `a-i`, `j-r`, `s-z`,
and the bucket is a function (`bucketOfSecond`) of the second character
of that canonical form alone (with default `'a'` when absent). -/
theorem claim_c2_bucket (last : List Char) (c0 : Char) (rest : List Char)
    (hclean : cleanOf last = c0 :: rest) (h1 : 'a' ≤ c0) (h2 : c0 ≤ 'z') :
    ∃ b e, computeLetterAndRange last =
        .ok ⟨[jsUpper c0], [jsUpper c0, b, '-', jsUpper c0, e]⟩ ∧
      (b, e) = bucketOfSecond (jsLower (rest.headD 'a')) ∧
      ((b, e) = ('a', 'i') ∨ (b, e) = ('j', 'r') ∨ (b, e) = ('s', 'z')) :=
  ⟨_, _, computeLetterAndRange_ok hclean h1 h2, rfl, bucketOfSecond_cases _⟩

/-- Witness for C2 at the concrete last name `smith`. -/
theorem claim_c2_bucket_witness :
    ∃ b e, computeLetterAndRange (r"smith").toList =
        .ok ⟨[jsUpper 's'], [jsUpper 's', b, '-', jsUpper 's', e]⟩ ∧
      (b, e) = bucketOfSecond (jsLower (((r"mith").toList).headD 'a')) ∧
      ((b, e) = ('a', 'i') ∨ (b, e) = ('j', 'r') ∨ (b, e) = ('s', 'z')) :=
  claim_c2_bucket (r"smith").toList 's' (r"mith").toList (by decide)
    (by decide) (by decide)

/-- C3: a candidate matches the exact-tier pattern iff, up to ASCII
case (every character lower-cased), it is `canonicalKebab last`, a
hyphen, `canonicalKebab first`, a hyphen, and exactly four decimal
digits. -/
theorem claim_c3_exact_iff (last first cand : List Char) :
    mtch (buildExactRegex last first) cand = true ↔
      ∃ d, d.length = 4 ∧ (∀ c ∈ d, isDigit09 c = true) ∧
        List.map jsLower cand =
          canonicalKebab last ++ '-' :: (canonicalKebab first ++ '-' :: d) :=
  exactRegex_match_iff last first cand

/-- C4: the tiers are ordered by decreasing specificity — when both
names canonicalize to non-empty strings, every candidate matching the
exact pattern also matches the last-plus-first-initial pattern, the
last-only pattern, and the first-letter pattern. -/
theorem claim_c4_subsumption (last first : List Char)
    (hL : canonicalKebab last ≠ []) (hF : canonicalKebab first ≠ [])
    (cand : List Char) (h : mtch (buildExactRegex last first) cand = true) :
    mtch (buildLastPlusFirstInitialRegex last first) cand = true ∧
      mtch (buildLastOnlyRegex last) cand = true ∧
      mtch (buildFirstLetterRegex last) cand = true :=
  tier_subsumption hL hF h

/-- Witness for C4 at `smith`, `john`, candidate `Smith-John-1234`. -/
theorem claim_c4_subsumption_witness :
    canonicalKebab (r"smith").toList ≠ [] ∧
    canonicalKebab (r"john").toList ≠ [] ∧
    mtch (buildExactRegex (r"smith").toList (r"john").toList)
      (r"Smith-John-1234").toList = true ∧
    (mtch (buildLastPlusFirstInitialRegex (r"smith").toList (r"john").toList)
        (r"Smith-John-1234").toList = true ∧
      mtch (buildLastOnlyRegex (r"smith").toList)
        (r"Smith-John-1234").toList = true ∧
      mtch (buildFirstLetterRegex (r"smith").toList)
        (r"Smith-John-1234").toList = true) :=
  ⟨by decide, by decide, by decide,
    claim_c4_subsumption (r"smith").toList (r"john").toList (by decide)
      (by decide) (r"Smith-John-1234").toList (by decide)⟩

/-- C5: when no tier clicks (each `clickFirstRegex` resolves false or
rejects), the query's entry keeps its initial state
`found = false, headshotImgString = null`, and the loop step goes on to
the remaining queries. -/
theorem claim_c5_not_found (env : QueryEnv) (name : List Char)
    (h1 : env.tier1 ≠ .clickedTrue) (h2 : env.tier2 ≠ .clickedTrue)
    (h3 : env.tier3 ≠ .clickedTrue) (h4 : env.tier4 ≠ .clickedTrue) :
    processPerson env name (initEntry name) =
      { name := name, found := false, headshotImgString := .nul } ∧
    (∀ (envs : Nat → QueryEnv) (i : Nat) (rest : List (List Char)),
      runBatchFrom envs i (name :: rest) =
        processPerson (envs i) name (initEntry name) ::
          runBatchFrom envs (i + 1) rest) := by
  refine ⟨?_, fun envs i rest => rfl⟩
  rw [processPerson_no_click h1]
  rfl

/-- Witness for C5 at a concrete all-failing oracle. -/
theorem claim_c5_not_found_witness :
    processPerson envAllFail nameJohnSmith (initEntry nameJohnSmith) =
      { name := nameJohnSmith, found := false, headshotImgString := .nul } ∧
    (∀ (envs : Nat → QueryEnv) (i : Nat) (rest : List (List Char)),
      runBatchFrom envs i (nameJohnSmith :: rest) =
        processPerson (envs i) nameJohnSmith (initEntry nameJohnSmith) ::
          runBatchFrom envs (i + 1) rest) :=
  claim_c5_not_found envAllFail nameJohnSmith (by decide) (by decide)
    (by decide) (by decide)

/-- C6: for a non-empty input list the script returns one entry per
input name; each entry is a function of that query's own name and
oracle alone, and a query whose body throws (the exception reaching the
outer catch) still contributes its reached entry state while the rest
of the batch is processed. -/
theorem claim_c6_batch (env : Nat → QueryEnv) (names : List (List Char))
    (hne : names ≠ []) :
    ∃ out, peopleCardScript env names = some out ∧
      out.length = names.length ∧
      (∀ k, out.get? k = (names.get? k).map
        (fun n => processPerson (env k) n (initEntry n))) ∧
      (∀ k n e err, names.get? k = some n →
        runQueryBody (env k) n (initEntry n) = (e, some err) →
        out.get? k = some e) := by
  refine ⟨runBatch env names, ?_, runBatchFrom_length env 0 names, ?_, ?_⟩
  · unfold peopleCardScript
    rw [if_pos ?_]
    cases names with
    | nil => exact absurd rfl hne
    | cons n ns => exact Nat.succ_pos ns.length
  · exact fun k => runBatch_get? env k names
  · intro k n e err hn hb
    rw [runBatch_get?, hn]
    have he : processPerson (env k) n (initEntry n) = e := by
      unfold processPerson
      rw [hb]
    simp [he]

/-- Witness for C6 at a concrete one-query batch. -/
theorem claim_c6_batch_witness :
    ∃ out, peopleCardScript (fun _ => envAllFail) [nameJohnSmith] = some out ∧
      out.length = [nameJohnSmith].length ∧
      (∀ k, out.get? k = ([nameJohnSmith].get? k).map
        (fun n => processPerson envAllFail n (initEntry n))) ∧
      (∀ k n e err, [nameJohnSmith].get? k = some n →
        runQueryBody envAllFail n (initEntry n) = (e, some err) →
        out.get? k = some e) :=
  claim_c6_batch (fun _ => envAllFail) [nameJohnSmith] (by decide)

/-- C7: both normalization helpers are idempotent on every input
string. -/
theorem claim_c7_idempotent (s : List Char) :
    sanitizeName (sanitizeName s) = sanitizeName s ∧
      canonicalKebab (canonicalKebab s) = canonicalKebab s :=
  ⟨sanitizeName_idem s, canonicalKebab_idem s⟩

/-- C8: `getHeadshotImageString` throws a `ReferenceError` on every
call (the `const val` binding is scoped to the `if` block, while
`return val || null` resolves `val` outside it), and consequently no
entry of any batch ever carries a non-null `headshotImgString`. -/
theorem claim_c8_reference_error :
    (∀ doc : List SpanNode,
      getHeadshotImageString doc = .error .referenceError) ∧
    (∀ (env : Nat → QueryEnv) (names : List (List Char)),
      ∀ e ∈ runBatch env names, e.headshotImgString = .nul) :=
  ⟨getHeadshotImageString_throws,
    fun env names e he => headshot_nul_runBatchFrom env names 0 e he⟩

/-- Witness for C8: a document that does contain a headshot span with
a value still throws, and the entry of a batch whose exact tier clicked
still carries a null reference. -/
theorem claim_c8_reference_error_witness :
    getHeadshotImageString [⟨headshotLabel, some (r"img.png").toList⟩] =
      .error .referenceError ∧
    ({ name := nameJohnSmith, found := true, headshotImgString := .nul } :
      Entry).headshotImgString = .nul :=
  ⟨claim_c8_reference_error.1 [⟨headshotLabel, some (r"img.png").toList⟩],
    claim_c8_reference_error.2 (fun _ => envExactClick) [nameJohnSmith]
      { name := nameJohnSmith, found := true, headshotImgString := .nul }
      (by decide)⟩

/-- C9: edge cases of `computeLetterAndRange`: a one-character clean
form defaults the second letter to `a` and yields the `a-i` bucket; a
digit second character fails both range comparisons and yields the
`s-z` bucket; and a clean form that does not start with a letter
(upper-cased head outside `A`–`Z`, including the empty clean form)
makes the function throw. -/
theorem claim_c9_edges :
    (∀ last c0, cleanOf last = [c0] → 'a' ≤ c0 → c0 ≤ 'z' →
      computeLetterAndRange last =
        .ok ⟨[jsUpper c0], [jsUpper c0, 'a', '-', jsUpper c0, 'i']⟩) ∧
    (∀ last c0 c1 rest, cleanOf last = c0 :: c1 :: rest →
      'a' ≤ c0 → c0 ≤ 'z' → '0' ≤ c1 → c1 ≤ '9' →
      computeLetterAndRange last =
        .ok ⟨[jsUpper c0], [jsUpper c0, 's', '-', jsUpper c0, 'z']⟩) ∧
    (∀ last, (∀ c0 rest, cleanOf last = c0 :: rest →
        ¬('A' ≤ jsUpper c0 ∧ jsUpper c0 ≤ 'Z')) →
      computeLetterAndRange last = .error .jsError) := by
  refine ⟨?_, ?_, ?_⟩
  · intro last c0 hclean h1 h2
    have := computeLetterAndRange_ok hclean h1 h2
    rw [show bucketOfSecond (jsLower (([] : List Char).headD 'a')) = ('a', 'i')
      from by decide] at this
    exact this
  · intro last c0 c1 rest hclean h1 h2 h3 h4
    have := computeLetterAndRange_ok hclean h1 h2
    have hdig : isDigit09 c1 = true := decide_eq_true ⟨h3, h4⟩
    rw [show ((c1 :: rest).headD 'a') = c1 from rfl, jsLower_fix_digit hdig] at this
    rw [show bucketOfSecond c1 = ('s', 'z') from ?_] at this
    · exact this
    · unfold bucketOfSecond
      have h3' : 48 ≤ c1.toNat := h3
      have h4' : c1.toNat ≤ 57 := h4
      rw [if_neg ?_, if_neg ?_]
      · rintro ⟨ha, _⟩
        have : 106 ≤ c1.toNat := ha
        omega
      · rintro ⟨ha, _⟩
        have : 97 ≤ c1.toNat := ha
        omega
  · intro last h
    exact computeLetterAndRange_error h

/-- Witness for C9 at the concrete last names `s`, `s3`, `3a`. -/
theorem claim_c9_edges_witness :
    computeLetterAndRange (r"s").toList =
      .ok ⟨[jsUpper 's'], [jsUpper 's', 'a', '-', jsUpper 's', 'i']⟩ ∧
    computeLetterAndRange (r"s3").toList =
      .ok ⟨[jsUpper 's'], [jsUpper 's', 's', '-', jsUpper 's', 'z']⟩ ∧
    computeLetterAndRange (r"3a").toList = .error .jsError := by
  refine ⟨claim_c9_edges.1 (r"s").toList 's' (by decide) (by decide) (by decide),
    claim_c9_edges.2.1 (r"s3").toList 's' '3' [] (by decide) (by decide)
      (by decide) (by decide) (by decide),
    claim_c9_edges.2.2 (r"3a").toList ?_⟩
  intro c0 rest h
  rw [show cleanOf (r"3a").toList = ['3', 'a'] from by decide] at h
  have hc : c0 = '3' := by
    have := congrArg List.head? h
    simpa using this.symm
  rw [hc]
  decide

/-- C10: a name that sanitizes to fewer than two space-separated
tokens makes `parsePersonName` throw before any tree interaction (the
body's result does not depend on the oracle), and the per-query catch
leaves the entry at its initial `found = false, headshotImgString =
null` state. -/
theorem claim_c10_short_name (name : List Char)
    (h : (splitOnSpace (sanitizeName name)).length < 2) :
    parsePersonName name = .error .jsError ∧
    (∀ (env : QueryEnv) (entry : Entry),
      runQueryBody env name entry = (entry, some .jsError)) ∧
    (∀ env : QueryEnv, processPerson env name (initEntry name) =
      { name := name, found := false, headshotImgString := .nul }) := by
  have hp : parsePersonName name = .error .jsError := by
    unfold parsePersonName
    dsimp only
    rw [if_pos h]
  refine ⟨hp, fun env entry => runQueryBody_parse_error hp env entry, fun env => ?_⟩
  rw [processPerson_parse_error hp env (initEntry name)]
  rfl

/-- Witness for C10 at the one-word name `Madonna`. -/
theorem claim_c10_short_name_witness :
    parsePersonName (r"Madonna").toList = .error .jsError ∧
    (∀ (env : QueryEnv) (entry : Entry),
      runQueryBody env (r"Madonna").toList entry = (entry, some .jsError)) ∧
    (∀ env : QueryEnv,
      processPerson env (r"Madonna").toList (initEntry (r"Madonna").toList) =
        { name := (r"Madonna").toList, found := false,
          headshotImgString := .nul }) :=
  claim_c10_short_name (r"Madonna").toList (by decide)

end PeopleCard
